import Mathlib

/-!
slick-deploy: a verification development.

A shallow embedding of the configuration loader (`internal/config/config.go`)
and of the Caddy front end (`internal/caddy/caddy.go`, `internal/caddy/client.go`),
followed by theorems about them.

Go strings are byte sequences; they are embedded as lists of bytes.  The Go
`error` interface is embedded as `Option GoError` (`none` is `nil`).
-/

namespace SlickDeploy

/-! ## Strings and the pieces of the Go standard library the code calls -/

/-- A Go string: an immutable sequence of bytes. -/
abbrev GoString := List UInt8

/-- The bytes (UTF-8) of a string literal of the source. -/
def str (s : String) : GoString := s.toList.flatMap String.utf8EncodeChar

/-- A non-nil Go error value, carrying its message. -/
structure GoError where
  msg : GoString
deriving DecidableEq, Repr

/-- Go `strings.HasPrefix`. -/
def hasPrefix (s pre : GoString) : Bool := pre.isPrefixOf s

/-- Go `strings.HasSuffix`. -/
def hasSuffix (s suf : GoString) : Bool := suf.isSuffixOf s

/-- Go `strings.TrimPrefix`: `s` without the leading `pre`, or `s` itself. -/
def trimPrefix (s pre : GoString) : GoString :=
  if hasPrefix s pre then s.drop pre.length else s

/-- Go `strings.TrimSuffix`: `s` without the trailing `suf`, or `s` itself. -/
def trimSuffix (s suf : GoString) : GoString :=
  if hasSuffix s suf then s.take (s.length - suf.length) else s

/-- The scan of Go `strings.ReplaceAll` for a non-empty `old`: at each position,
an occurrence of `old` is replaced by `new` and the scan resumes after it;
otherwise one byte is copied.  The first argument bounds the number of steps. -/
def replaceAllAux (old new : GoString) : Nat → GoString → GoString
  | _, [] => []
  | 0, s => s
  | fuel + 1, c :: cs =>
    if hasPrefix (c :: cs) old then
      new ++ replaceAllAux old new fuel ((c :: cs).drop old.length)
    else
      c :: replaceAllAux old new fuel cs

/-- Go `strings.ReplaceAll(s, old, new)` for a non-empty `old` (the only use in
the source passes the constant `"{port}"`): every non-overlapping occurrence of
`old`, found from the left, is replaced by `new`. -/
def replaceAll (s old new : GoString) : GoString :=
  replaceAllAux old new s.length s

/-- The ASCII digit of `d % 10`. -/
def digitByte (d : Nat) : UInt8 := (48 + d % 10).toUInt8

/-- Decimal digits of a natural number, most significant first, pushed in
front of `acc`; the first argument bounds the number of digits. -/
def formatNatAux : Nat → Nat → GoString → GoString
  | 0, _, acc => acc
  | fuel + 1, n, acc =>
    if n < 10 then digitByte n :: acc
    else formatNatAux fuel (n / 10) (digitByte n :: acc)

/-- Decimal representation of a natural number. -/
def formatNat (n : Nat) : GoString := formatNatAux (n + 1) n []

/-- Go `fmt.Sprintf("%d", port)` for an `int`: a minus sign for a negative
number, then the decimal digits of the magnitude. -/
def sprintfD (port : Int) : GoString :=
  if port < 0 then 45 :: formatNat port.natAbs else formatNat port.natAbs

/-! ## `internal/config/config.go`: the data model -/

structure PortRange where
  Start : Int
  End : Int
deriving DecidableEq, Repr

structure RegistryConfig where
  Username : GoString
  Password : GoString
deriving DecidableEq, Repr

structure App where
  Name : GoString
  ImageName : GoString
  Registry : RegistryConfig
  ContainerPort : Int
  Network : GoString
  ENV : List GoString
  PortRange : PortRange
deriving DecidableEq, Repr

structure ReverseProxy where
  Path : GoString
  To : GoString
deriving DecidableEq, Repr

structure Rule where
  Match : GoString
  Tls : GoString
  ReverseProxy : List ReverseProxy
deriving DecidableEq, Repr

structure CaddyConfig where
  AdminAPI : GoString
  Rules : List Rule
deriving DecidableEq, Repr

structure HealthCheck where
  Endpoint : GoString
  TimeoutSeconds : Int
  IntervalSeconds : Int
  MaxRetries : Int
deriving DecidableEq, Repr

structure DeploymentConfig where
  App : App
  Caddy : CaddyConfig
  HealthCheck : HealthCheck
deriving DecidableEq, Repr

/-! ## `internal/caddy/caddy.go` -/

/-- Go `fmt.Sprintf("  reverse_proxy %s %s\n", path, toPath)`. -/
def sprintfReverseProxy (path toPath : GoString) : GoString :=
  str "  reverse_proxy " ++ path ++ str " " ++ toPath ++ str "\n"

/-- The function `ConvertToCaddyfile` translates the Caddy part of the configuration to a
Caddyfile string.  The `strings.Builder` is the accumulator of the two loops;
`WriteString` appends. -/
def ConvertToCaddyfile (caddyCfg : CaddyConfig) (port : Int) : GoString × Option GoError :=
  let caddyfileBuilder : GoString := []
  let caddyfileBuilder := caddyCfg.Rules.foldl (fun builder rule =>
    let builder := builder ++ rule.Match
    let builder := builder ++ str " \x7b\n"
    let builder := rule.ReverseProxy.foldl (fun builder proxy =>
      let toPath := replaceAll proxy.To (str "\x7bport\x7d") (sprintfD port)
      builder ++ sprintfReverseProxy proxy.Path toPath) builder
    builder ++ str "\x7d\n") caddyfileBuilder
  (caddyfileBuilder, none)

/-- Go `http.Client`, reduced to its `Timeout` field (a `time.Duration`, in
nanoseconds).  In `net/http` a `Timeout` of zero means no timeout; the other
fields of the zero value are nil. -/
structure HTTPClient where
  Timeout : Int
deriving DecidableEq, Repr

/-- The zero value `http.Client{}`. -/
def HTTPClient.zero : HTTPClient := { Timeout := 0 }

/-- The struct `CaddyClient` of `internal/caddy/client.go`. -/
structure CaddyClient where
  BaseURL : GoString
  HTTPClient : HTTPClient
deriving DecidableEq, Repr

/-- The constructor `NewCaddyClient` of `internal/caddy/client.go`: the base URL and
`&http.Client{}`. -/
def NewCaddyClient (baseURL : GoString) : CaddyClient :=
  { BaseURL := baseURL, HTTPClient := HTTPClient.zero }

/-- The function `SetupCaddy` of `internal/caddy/caddy.go`.  The method
`client.Load` is defined outside the files embedded here: it is the parameter
`Load`, which pushes the Caddyfile to the admin API and reports the outcome.
The source calls it as a statement, so its outcome is dropped, and then tests
`err` of the rendering a second time. -/
def SetupCaddy (Load : CaddyClient → GoString → Option GoError) (port : Int)
    (cfg : DeploymentConfig) : Option GoError :=
  match ConvertToCaddyfile cfg.Caddy port with
  | (caddyfile, err) =>
    if err.isSome then err
    else
      let client := NewCaddyClient cfg.Caddy.AdminAPI
      let _ := Load client caddyfile
      if err.isSome then err
      else none

/-! ## `internal/config/config.go`: `replaceEnvVariables` -/

/-- The process environment, as seen through `os.LookupEnv`. -/
abbrev Env := GoString → Option GoString

/-- The class `[a-zA-Z_]`. -/
def isNameStart (b : UInt8) : Bool :=
  (97 ≤ b && b ≤ 122) || (65 ≤ b && b ≤ 90) || b == 95

/-- The class `[a-zA-Z0-9_]`. -/
def isNameChar (b : UInt8) : Bool :=
  (97 ≤ b && b ≤ 122) || (65 ≤ b && b ≤ 90) || (48 ≤ b && b ≤ 57) || b == 95

/-- A match of the regular expression `\{env\.([a-zA-Z_][a-zA-Z0-9_]*)\}`
anchored at the start of `s`: the matched text and what follows it.  The
closing brace is not in the class of the starred part, so the only candidate is
the longest run of name bytes. -/
def matchEnvRef (s : GoString) : Option (GoString × GoString) :=
  if hasPrefix s (str "\x7benv.") then
    match s.drop 5 with
    | c :: cs =>
      if isNameStart c then
        match cs.dropWhile isNameChar with
        | d :: rest =>
          if d = 125 then
            some (str "\x7benv." ++ (c :: cs.takeWhile isNameChar) ++ str "\x7d", rest)
          else none
        | [] => none
      else none
    | [] => none
  else none

/-- Go `(*Regexp).ReplaceAllStringFunc` for the expression of `matchEnvRef`:
the leftmost match is replaced by `repl` of its text and the scan resumes after
it; where no match starts, one byte is copied.  The first argument bounds the
number of steps. -/
def replaceAllStringFuncAux (repl : GoString → GoString) : Nat → GoString → GoString
  | _, [] => []
  | 0, s => s
  | fuel + 1, c :: cs =>
    match matchEnvRef (c :: cs) with
    | some (m, rest) => repl m ++ replaceAllStringFuncAux repl fuel rest
    | none => c :: replaceAllStringFuncAux repl fuel cs

/-- Go `re.ReplaceAllStringFunc(input, repl)`. -/
def replaceAllStringFunc (input : GoString) (repl : GoString → GoString) : GoString :=
  replaceAllStringFuncAux repl input.length input

/-- The function `replaceEnvVariables` of `internal/config/config.go`. -/
def replaceEnvVariables (env : Env) (input : GoString) : GoString × Option GoError :=
  (replaceAllStringFunc input (fun m =>
    let varName := trimPrefix m (str "\x7benv.")
    let varName := trimSuffix varName (str "\x7d")
    match env varName with
    | some envValue => envValue
    | none => m), none)

/-! ## `internal/config/config.go`: `LoadConfig` -/

/-! The YAML document as `yaml.v3` sees it when it decodes into the
configuration structs: each key of a mapping is either absent (or null), and
then the destination field is left as it was, or present with a value. -/

structure YamlPortRange where
  Start : Option Int
  End : Option Int
deriving DecidableEq, Repr

structure YamlRegistryConfig where
  Username : Option GoString
  Password : Option GoString
deriving DecidableEq, Repr

structure YamlApp where
  Name : Option GoString
  ImageName : Option GoString
  Registry : Option YamlRegistryConfig
  ContainerPort : Option Int
  Network : Option GoString
  ENV : Option (List GoString)
  PortRange : Option YamlPortRange
deriving DecidableEq, Repr

structure YamlReverseProxy where
  Path : Option GoString
  To : Option GoString
deriving DecidableEq, Repr

structure YamlRule where
  Match : Option GoString
  Tls : Option GoString
  ReverseProxy : Option (List YamlReverseProxy)
deriving DecidableEq, Repr

structure YamlCaddyConfig where
  AdminAPI : Option GoString
  Rules : Option (List YamlRule)
deriving DecidableEq, Repr

structure YamlHealthCheck where
  Endpoint : Option GoString
  TimeoutSeconds : Option Int
  IntervalSeconds : Option Int
  MaxRetries : Option Int
deriving DecidableEq, Repr

structure YamlDeploymentConfig where
  App : Option YamlApp
  Caddy : Option YamlCaddyConfig
  HealthCheck : Option YamlHealthCheck
deriving DecidableEq, Repr

/-- Decoding of a scalar or of a whole value into a field that holds `cur`. -/
def decodeInto {α : Type} (doc : Option α) (cur : α) : α :=
  match doc with
  | some v => v
  | none => cur

def YamlPortRange.decodeInto (doc : Option YamlPortRange) (cur : PortRange) : PortRange :=
  match doc with
  | none => cur
  | some d =>
    { Start := SlickDeploy.decodeInto d.Start cur.Start
      End := SlickDeploy.decodeInto d.End cur.End }

def YamlRegistryConfig.decodeInto (doc : Option YamlRegistryConfig) (cur : RegistryConfig) :
    RegistryConfig :=
  match doc with
  | none => cur
  | some d =>
    { Username := SlickDeploy.decodeInto d.Username cur.Username
      Password := SlickDeploy.decodeInto d.Password cur.Password }

def YamlApp.decodeInto (doc : Option YamlApp) (cur : App) : App :=
  match doc with
  | none => cur
  | some d =>
    { Name := SlickDeploy.decodeInto d.Name cur.Name
      ImageName := SlickDeploy.decodeInto d.ImageName cur.ImageName
      Registry := YamlRegistryConfig.decodeInto d.Registry cur.Registry
      ContainerPort := SlickDeploy.decodeInto d.ContainerPort cur.ContainerPort
      Network := SlickDeploy.decodeInto d.Network cur.Network
      ENV := SlickDeploy.decodeInto d.ENV cur.ENV
      PortRange := YamlPortRange.decodeInto d.PortRange cur.PortRange }

/-- An element of a sequence is decoded into a fresh zero value. -/
def YamlReverseProxy.decode (d : YamlReverseProxy) : ReverseProxy :=
  { Path := SlickDeploy.decodeInto d.Path []
    To := SlickDeploy.decodeInto d.To [] }

/-- An element of a sequence is decoded into a fresh zero value. -/
def YamlRule.decode (d : YamlRule) : Rule :=
  { Match := SlickDeploy.decodeInto d.Match []
    Tls := SlickDeploy.decodeInto d.Tls []
    ReverseProxy := SlickDeploy.decodeInto (d.ReverseProxy.map (List.map YamlReverseProxy.decode)) [] }

def YamlCaddyConfig.decodeInto (doc : Option YamlCaddyConfig) (cur : CaddyConfig) : CaddyConfig :=
  match doc with
  | none => cur
  | some d =>
    { AdminAPI := SlickDeploy.decodeInto d.AdminAPI cur.AdminAPI
      Rules := SlickDeploy.decodeInto (d.Rules.map (List.map YamlRule.decode)) cur.Rules }

def YamlHealthCheck.decodeInto (doc : Option YamlHealthCheck) (cur : HealthCheck) : HealthCheck :=
  match doc with
  | none => cur
  | some d =>
    { Endpoint := SlickDeploy.decodeInto d.Endpoint cur.Endpoint
      TimeoutSeconds := SlickDeploy.decodeInto d.TimeoutSeconds cur.TimeoutSeconds
      IntervalSeconds := SlickDeploy.decodeInto d.IntervalSeconds cur.IntervalSeconds
      MaxRetries := SlickDeploy.decodeInto d.MaxRetries cur.MaxRetries }

/-- The effect of `yaml.Unmarshal(data, &c)` on `c`, for the document `doc`
that `data` holds: fields the document gives are overwritten, the others keep
their value. -/
def YamlDeploymentConfig.decodeInto (doc : YamlDeploymentConfig) (c : DeploymentConfig) :
    DeploymentConfig :=
  { App := YamlApp.decodeInto doc.App c.App
    Caddy := YamlCaddyConfig.decodeInto doc.Caddy c.Caddy
    HealthCheck := YamlHealthCheck.decodeInto doc.HealthCheck c.HealthCheck }

/-- What `LoadConfig` reaches outside the program. -/
structure World where
  /-- The call `os.Open(path)` followed by `io.ReadAll`, whose error the source drops:
  the bytes read, or the error of `os.Open`. -/
  openFile : GoString → Except GoError GoString
  /-- The YAML parser of `yaml.Unmarshal`: the part of the document it decoded,
  and its error if the data is not well formed. -/
  yamlParse : GoString → YamlDeploymentConfig × Option GoError
  /-- The function `os.LookupEnv`. -/
  lookupEnv : Env

/-- The zero value `DeploymentConfig{}`. -/
def DeploymentConfig.zero : DeploymentConfig :=
  { App :=
      { Name := [], ImageName := [], Registry := { Username := [], Password := [] },
        ContainerPort := 0, Network := [], ENV := [], PortRange := { Start := 0, End := 0 } }
    Caddy := { AdminAPI := [], Rules := [] }
    HealthCheck := { Endpoint := [], TimeoutSeconds := 0, IntervalSeconds := 0, MaxRetries := 0 } }

/-- The default deployment config that `LoadConfig` creates. -/
def defaultConfig : DeploymentConfig :=
  { App :=
      { Name := [], ImageName := [], Registry := { Username := [], Password := [] },
        ContainerPort := 0, Network := [], ENV := []
        PortRange := { Start := 8000, End := 9000 } }
    Caddy := { AdminAPI := str "http://localhost:2019", Rules := [] }
    HealthCheck := { Endpoint := [], TimeoutSeconds := 5, IntervalSeconds := 5, MaxRetries := 3 } }

/-- The loop of `LoadConfig` over `c.Caddy.Rules`: each rule's `Tls` is replaced
by the result of `replaceEnvVariables`; at the first error the loop is left with
the rules as they are then. -/
def resolveRulesTls (env : Env) : List Rule → List Rule × Option GoError
  | [] => ([], none)
  | rule :: rest =>
    match replaceEnvVariables env rule.Tls with
    | (_, some err) => (rule :: rest, some err)
    | (newTlsValue, none) =>
      match resolveRulesTls env rest with
      | (rest', err) => ({ rule with Tls := newTlsValue } :: rest', err)

/-- The function `LoadConfig` of `internal/config/config.go`. -/
def LoadConfig (w : World) (path : GoString) : DeploymentConfig × Option GoError :=
  match w.openFile path with
  | .error err =>
    (DeploymentConfig.zero, some { msg := str "error opening config file: " ++ err.msg })
  | .ok data =>
    let c := defaultConfig
    match w.yamlParse data with
    | (doc, some err) => (doc.decodeInto c, some err)
    | (doc, none) =>
      let c := doc.decodeInto c
      match resolveRulesTls w.lookupEnv c.Caddy.Rules with
      | (rules, some err) => ({ c with Caddy := { c.Caddy with Rules := rules } }, some err)
      | (rules, none) =>
        let c := { c with Caddy := { c.Caddy with Rules := rules } }
        let c :=
          if c.App.Registry.Username ≠ [] ∧ c.App.Registry.Password ≠ [] then
            match w.lookupEnv c.App.Registry.Password with
            | some envValue =>
              { c with App := { c.App with Registry := { c.App.Registry with Password := envValue } } }
            | none => c
          else c
        (c, none)

/-! ## Auxiliary definitions and the specification of the substitution -/

/-- The bytes `-` and `0` to `9`. -/
def isDecimalByte (b : UInt8) : Bool := b == 45 || (48 ≤ b && b ≤ 57)

/-- The decimal numeral of a natural number as the specification means it,
written from the positional digits of `Nat.digits`, most significant first:
`0` is the one digit `0`, and no other numeral has a leading zero.  It is the
reference that `formatNat` is compared with. -/
def decimalText (n : Nat) : GoString :=
  if n = 0 then [48] else (Nat.digits 10 n).reverse.map (fun d => (48 + d).toUInt8)

/-- The decimal numeral of an integer as the specification means it: a minus
sign for a negative number, then the numeral of the magnitude.  It is the
reference that `sprintfD` is compared with. -/
def decimalOf (port : Int) : GoString :=
  (if port < 0 then [45] else []) ++ decimalText port.natAbs

/-- The registry credentials after the last step of `LoadConfig`. -/
def resolveRegistry (env : Env) (r : RegistryConfig) : RegistryConfig :=
  { Username := r.Username
    Password :=
      if r.Username ≠ [] ∧ r.Password ≠ [] then
        match env r.Password with
        | some envValue => envValue
        | none => r.Password
      else r.Password }

/-- A variable name of a reference: `[a-zA-Z_][a-zA-Z0-9_]*`. -/
def isEnvName : GoString → Bool
  | [] => false
  | c :: cs => isNameStart c && cs.all isNameChar

/-- The text `{env.NAME}` of a reference to the variable `name`. -/
def envRef (name : GoString) : GoString := str "\x7benv." ++ name ++ str "\x7d"

/-- The substitution of environment references, as the specification words it:
reading from the left, a reference `{env.NAME}` is replaced by the value of
`NAME` when the variable is set and stays as it is when the variable is not
set; a byte at which no reference starts is copied. -/
inductive EnvSubst (env : Env) : GoString → GoString → Prop
  | nil : EnvSubst env [] []
  | ref (name rest out : GoString) :
      isEnvName name = true → EnvSubst env rest out →
      EnvSubst env (envRef name ++ rest)
        ((match env name with
          | some value => value
          | none => envRef name) ++ out)
  | byte (c : UInt8) (rest out : GoString) :
      (∀ name tail, isEnvName name = true → c :: rest ≠ envRef name ++ tail) →
      EnvSubst env rest out → EnvSubst env (c :: rest) (c :: out)

/-! ## A concrete world -/

/-- The document of the registry test, with a health check added: the
application `Test App`, the registry user `testuser` with the password
`TEST_REGISTRY_PASSWORD`, the endpoint `/health` and a timeout of 30 seconds. -/
def testDoc : YamlDeploymentConfig :=
  { App := some
      { Name := some (str "Test App"), ImageName := some (str "testapp/image"),
        Registry := some
          { Username := some (str "testuser"), Password := some (str "TEST_REGISTRY_PASSWORD") },
        ContainerPort := some 8080, Network := none, ENV := none, PortRange := none }
    Caddy := none
    HealthCheck := some
      { Endpoint := some (str "/health"), TimeoutSeconds := some 30,
        IntervalSeconds := none, MaxRetries := none } }

/-- A world with the one file `slick.yml`, which holds `testDoc`, and the one
variable `TEST_REGISTRY_PASSWORD`, set to `testpassword`. -/
def testWorld : World :=
  { openFile := fun path =>
      if path = str "slick.yml" then .ok (str "app: ...")
      else .error { msg := str "open: no such file or directory" }
    yamlParse := fun _ => (testDoc, none)
    lookupEnv := fun name =>
      if name = str "TEST_REGISTRY_PASSWORD" then some (str "testpassword") else none }

/-! ## Lemmas on the string functions -/

theorem hasPrefix_iff (s pre : GoString) : hasPrefix s pre = true ↔ pre <+: s := by
  simp [hasPrefix]

theorem hasSuffix_iff (s suf : GoString) : hasSuffix s suf = true ↔ suf <:+ s := by
  simp [hasSuffix]

theorem trimPrefix_append (pre s : GoString) : trimPrefix (pre ++ s) pre = s := by
  have h : hasPrefix (pre ++ s) pre = true := (hasPrefix_iff _ _).2 (List.prefix_append _ _)
  simp [trimPrefix, h]

theorem trimSuffix_append (s suf : GoString) : trimSuffix (s ++ suf) suf = s := by
  have h : hasSuffix (s ++ suf) suf = true := (hasSuffix_iff _ _).2 (List.suffix_append _ _)
  simp [trimSuffix, h]

/-- The scan of `replaceAll` does not depend on the bound once the bound covers
the length of the string. -/
theorem replaceAllAux_fuel (old new : GoString) (hold : old ≠ []) :
    ∀ (fuel₁ fuel₂ : Nat) (s : GoString), s.length ≤ fuel₁ → s.length ≤ fuel₂ →
      replaceAllAux old new fuel₁ s = replaceAllAux old new fuel₂ s := by
  have hlen : 0 < old.length := List.length_pos.2 hold
  intro fuel₁
  induction fuel₁ with
  | zero =>
    intro fuel₂ s h1 _
    have hs : s = [] := List.length_eq_zero.mp (Nat.le_zero.mp h1)
    subst hs
    cases fuel₂ <;> simp [replaceAllAux]
  | succ n ih =>
    intro fuel₂ s h1 h2
    cases s with
    | nil => cases fuel₂ <;> simp [replaceAllAux]
    | cons c cs =>
      cases fuel₂ with
      | zero => simp at h2
      | succ m =>
        simp only [List.length_cons] at h1 h2
        simp only [replaceAllAux]
        split
        · congr 1
          apply ih <;> simp only [List.length_drop, List.length_cons] <;> omega
        · congr 1
          apply ih <;> omega

theorem replaceAll_nil (old new : GoString) : replaceAll [] old new = [] := by
  simp [replaceAll, replaceAllAux]

theorem replaceAll_hit (old new : GoString) (hold : old ≠ []) (s : GoString)
    (h : old <+: s) :
    replaceAll s old new = new ++ replaceAll (s.drop old.length) old new := by
  have hlen : 0 < old.length := List.length_pos.2 hold
  cases s with
  | nil => exact absurd (List.prefix_nil.1 h) hold
  | cons c cs =>
    have hp : hasPrefix (c :: cs) old = true := (hasPrefix_iff _ _).2 h
    simp only [replaceAll, List.length_cons, replaceAllAux, hp, if_true]
    congr 1
    apply replaceAllAux_fuel old new hold <;>
      simp only [List.length_drop, List.length_cons] <;> omega

theorem replaceAll_skip (old new : GoString) (_hold : old ≠ []) (c : UInt8) (cs : GoString)
    (h : ¬ old <+: c :: cs) :
    replaceAll (c :: cs) old new = c :: replaceAll cs old new := by
  have hp : hasPrefix (c :: cs) old = false := by
    rw [← Bool.not_eq_true, hasPrefix_iff]; exact h
  simp [replaceAll, replaceAllAux, hp]

/-- Induction along the scan of `replaceAll`. -/
theorem replaceAll_induction (old : GoString) (hold : old ≠ []) (motive : GoString → Prop)
    (nil : motive [])
    (hit : ∀ s, old <+: s → motive (s.drop old.length) → motive s)
    (skip : ∀ c cs, ¬ old <+: c :: cs → motive cs → motive (c :: cs)) :
    ∀ s, motive s := by
  have hlen : 0 < old.length := List.length_pos.2 hold
  intro s
  generalize h : s.length = n
  induction n using Nat.strong_induction_on generalizing s with
  | _ n ih =>
    cases s with
    | nil => exact nil
    | cons c cs =>
      by_cases hp : old <+: c :: cs
      · apply hit _ hp
        apply ih _ _ _ rfl
        subst h
        simp only [List.length_drop, List.length_cons]
        omega
      · apply skip _ _ hp
        apply ih _ _ _ rfl
        subst h
        simp

/-- A string none of whose bytes occurs in `new` starts the output of the scan
only if it starts the input. -/
theorem prefix_of_prefix_replaceAll (old new : GoString) (hold : old ≠ []) (hnew : new ≠ []) :
    ∀ (s q : GoString), (∀ b ∈ q, b ∉ new) → q <+: replaceAll s old new → q <+: s := by
  intro s
  induction s using replaceAll_induction old hold with
  | nil => intro q _ h; simpa [replaceAll_nil] using h
  | hit s hp _ =>
    intro q hq h
    rw [replaceAll_hit old new hold s hp] at h
    cases q with
    | nil => exact List.nil_prefix
    | cons b q' =>
      cases new with
      | nil => exact absurd rfl hnew
      | cons a new' =>
        exfalso
        have hb : b = a := by
          have := h
          simp only [List.cons_append, List.cons_prefix_cons] at this
          exact this.1
        exact hq b (List.mem_cons_self _ _) (hb ▸ List.mem_cons_self _ _)
  | skip c cs hp ih =>
    intro q hq h
    rw [replaceAll_skip old new hold c cs hp] at h
    cases q with
    | nil => exact List.nil_prefix
    | cons b q' =>
      rw [List.cons_prefix_cons] at h ⊢
      exact ⟨h.1, ih q' (fun x hx => hq x (List.mem_cons_of_mem _ hx)) h.2⟩

/-- An occurrence of `old` in `new ++ x` lies in `x` when no byte of `new` is a
byte of `old`. -/
theorem infix_of_infix_append (old : GoString) (hold : old ≠ []) (x : GoString) :
    ∀ (new : GoString), (∀ b ∈ old, b ∉ new) → old <:+: new ++ x → old <:+: x := by
  intro new
  induction new with
  | nil => intro _ h; simpa using h
  | cons a new' ih =>
    intro hd h
    rw [List.cons_append, List.infix_cons_iff] at h
    rcases h with h | h
    · exfalso
      cases old with
      | nil => exact hold rfl
      | cons o old' =>
        rw [List.cons_prefix_cons] at h
        exact hd o (List.mem_cons_self _ _) (h.1 ▸ List.mem_cons_self _ _)
    · exact ih (fun b hb hmem => hd b hb (List.mem_cons_of_mem _ hmem)) h

/-- After the scan no occurrence of `old` is left, when `new` is not empty and
shares no byte with `old`. -/
theorem not_infix_replaceAll (old new : GoString) (hold : old ≠ []) (hnew : new ≠ [])
    (hd : ∀ b ∈ old, b ∉ new) (s : GoString) : ¬ old <:+: replaceAll s old new := by
  induction s using replaceAll_induction old hold with
  | nil =>
    rw [replaceAll_nil]
    intro h
    exact hold (List.infix_nil.1 h)
  | hit s hp ih =>
    rw [replaceAll_hit old new hold s hp]
    intro h
    exact ih (infix_of_infix_append old hold _ new hd h)
  | skip c cs hp ih =>
    rw [replaceAll_skip old new hold c cs hp]
    intro h
    rw [List.infix_cons_iff] at h
    rcases h with h | h
    · apply hp
      apply prefix_of_prefix_replaceAll old new hold hnew (c :: cs) old hd
      rw [replaceAll_skip old new hold c cs hp]
      exact h
    · exact ih h

/-- A string without an occurrence of `old` is its own image under the scan. -/
theorem replaceAll_of_not_infix (old new : GoString) (hold : old ≠ []) (s : GoString) :
    ¬ old <:+: s → replaceAll s old new = s := by
  induction s using replaceAll_induction old hold with
  | nil => intro _; exact replaceAll_nil old new
  | hit s hp _ => intro h; exact absurd hp.isInfix h
  | skip c cs hp ih =>
    intro h
    rw [replaceAll_skip old new hold c cs hp, ih]
    intro h'
    exact h (List.infix_cons h')

/-- The first occurrence of `old` is replaced and the scan resumes after it. -/
theorem replaceAll_first_occurrence (old new : GoString) (hold : old ≠ []) (b : GoString) :
    ∀ (a : GoString), ¬ old <:+: a ++ old.dropLast →
      replaceAll (a ++ old ++ b) old new = a ++ new ++ replaceAll b old new := by
  intro a
  induction a with
  | nil =>
    intro _
    have hp : old <+: [] ++ old ++ b := by simp
    rw [replaceAll_hit old new hold _ hp]
    simp
  | cons c a' ih =>
    intro h
    have hskip : ¬ old <+: c :: (a' ++ old ++ b) := by
      intro hp
      apply h
      have h1 : c :: a' ++ old.dropLast <+: c :: (a' ++ old ++ b) := by
        have : c :: (a' ++ old ++ b) = (c :: a' ++ old.dropLast) ++ ([old.getLast hold] ++ b) := by
          have := List.dropLast_append_getLast hold
          conv_lhs => rw [← this]
          simp
        rw [this]
        exact List.prefix_append _ _
      have hl : old.length ≤ (c :: a' ++ old.dropLast).length := by
        simp only [List.cons_append, List.length_cons, List.length_append, List.length_dropLast]
        have : 0 < old.length := List.length_pos.2 hold
        omega
      exact (List.prefix_of_prefix_length_le hp h1 hl).isInfix
    have h' : ¬ old <:+: a' ++ old.dropLast := fun hi => h (by
      rw [List.cons_append]; exact List.infix_cons hi)
    have e : c :: a' ++ old ++ b = c :: (a' ++ old ++ b) := by simp
    rw [e, replaceAll_skip old new hold c _ hskip, ih h']
    simp

theorem suffix_formatNatAux (fuel n : Nat) (acc : GoString) :
    acc <:+ formatNatAux fuel n acc := by
  induction fuel generalizing n acc with
  | zero => simp [formatNatAux]
  | succ k ih =>
    simp only [formatNatAux]
    split
    · exact List.suffix_cons _ _
    · exact (List.suffix_cons _ _).trans (ih _ _)

theorem formatNat_ne_nil (n : Nat) : formatNat n ≠ [] := by
  unfold formatNat
  simp only [formatNatAux]
  split
  · simp
  · intro h
    have := suffix_formatNatAux n (n / 10) [digitByte n]
    rw [h] at this
    simp at this

theorem isDecimalByte_digitByte (d : Nat) : isDecimalByte (digitByte d) = true := by
  unfold digitByte
  have h : d % 10 < 10 := Nat.mod_lt _ (by decide)
  generalize d % 10 = k at h
  interval_cases k <;> decide

theorem isDecimalByte_formatNatAux (fuel n : Nat) (acc : GoString)
    (hacc : ∀ b ∈ acc, isDecimalByte b = true) :
    ∀ b ∈ formatNatAux fuel n acc, isDecimalByte b = true := by
  induction fuel generalizing n acc with
  | zero => simpa [formatNatAux] using hacc
  | succ k ih =>
    have hcons : ∀ b ∈ digitByte n :: acc, isDecimalByte b = true := by
      intro b hb
      rcases List.mem_cons.1 hb with rfl | hb
      · exact isDecimalByte_digitByte n
      · exact hacc b hb
    simp only [formatNatAux]
    split
    · exact hcons
    · exact ih _ _ hcons

theorem sprintfD_ne_nil (port : Int) : sprintfD port ≠ [] := by
  unfold sprintfD
  split
  · simp
  · exact formatNat_ne_nil _

theorem isDecimalByte_sprintfD (port : Int) : ∀ b ∈ sprintfD port, isDecimalByte b = true := by
  have h : ∀ b ∈ formatNat port.natAbs, isDecimalByte b = true :=
    isDecimalByte_formatNatAux _ _ [] (by simp)
  unfold sprintfD
  split
  · intro b hb
    rcases List.mem_cons.1 hb with rfl | hb
    · decide
    · exact h b hb
  · exact h

/-- The digits that `formatNatAux` pushes are the positional digits. -/
theorem formatNatAux_eq_decimalText (fuel : Nat) :
    ∀ (n : Nat) (acc : GoString), n < fuel → formatNatAux fuel n acc = decimalText n ++ acc := by
  induction fuel with
  | zero => intro n acc h; omega
  | succ k ih =>
    intro n acc h
    simp only [formatNatAux]
    split
    · rename_i hlt
      by_cases h0 : n = 0
      · subst h0
        simp only [decimalText, digitByte, if_true, List.singleton_append]
        rfl
      · have hmod : n % 10 = n := Nat.mod_eq_of_lt hlt
        simp [decimalText, h0, Nat.digits_of_lt 10 n h0 hlt, digitByte, hmod]
    · rename_i hge
      have hpos : 0 < n := by omega
      have hdiv : n / 10 ≠ 0 := by omega
      have hn0 : n ≠ 0 := by omega
      have hlt : n / 10 < k := by omega
      rw [ih (n / 10) _ hlt]
      simp [decimalText, hdiv, hn0, Nat.digits_def' (by decide : 1 < 10) hpos, digitByte]

theorem formatNat_eq_decimalText (n : Nat) : formatNat n = decimalText n := by
  unfold formatNat
  rw [formatNatAux_eq_decimalText (n + 1) n [] (Nat.lt_succ_self n)]
  simp

/-- The text of `fmt.Sprintf("%d", port)` is the decimal numeral of `port`. -/
theorem sprintfD_eq_decimalOf (port : Int) : sprintfD port = decimalOf port := by
  unfold sprintfD decimalOf
  rw [formatNat_eq_decimalText]
  split <;> simp

theorem placeholder_ne_nil : str "\x7bport\x7d" ≠ [] := by decide

/-- No byte of the placeholder is a byte of a decimal number. -/
theorem placeholder_disjoint (port : Int) : ∀ b ∈ str "\x7bport\x7d", b ∉ sprintfD port := by
  intro b hb hmem
  have hd := isDecimalByte_sprintfD port b hmem
  have hb' : b ∈ ([123, 112, 111, 114, 116, 125] : List UInt8) := hb
  simp only [List.mem_cons, List.mem_singleton, List.not_mem_nil, or_false] at hb'
  rcases hb' with rfl | rfl | rfl | rfl | rfl | rfl <;> exact absurd hd (by decide)

theorem foldl_append_map {α : Type} (f : α → GoString) (l : List α) (init : GoString) :
    l.foldl (fun b x => b ++ f x) init = init ++ (l.map f).flatten := by
  induction l generalizing init with
  | nil => simp
  | cons x xs ih => simp [ih]

/-- The block that `ConvertToCaddyfile` writes for one rule. -/
theorem ConvertToCaddyfile_fold (rules : List Rule) (port : Int) (init : GoString) :
    rules.foldl (fun builder rule =>
      (rule.ReverseProxy.foldl (fun builder proxy =>
        builder ++ sprintfReverseProxy proxy.Path
          (replaceAll proxy.To (str "\x7bport\x7d") (sprintfD port)))
        (builder ++ rule.Match ++ str " \x7b\n")) ++ str "\x7d\n") init =
    init ++ (rules.map (fun rule =>
      rule.Match ++ str " \x7b\n" ++
        (rule.ReverseProxy.map (fun proxy =>
          str "  reverse_proxy " ++ proxy.Path ++ str " " ++
            replaceAll proxy.To (str "\x7bport\x7d") (sprintfD port) ++ str "\n")).flatten ++
        str "\x7d\n")).flatten := by
  induction rules generalizing init with
  | nil => simp
  | cons r rs ih =>
    rw [List.foldl_cons, ih, foldl_append_map]
    simp [sprintfReverseProxy, List.append_assoc]

/-! ## Theorems on `ConvertToCaddyfile` -/

/-- C2: rendering is a homomorphism for the concatenation of rule lists, so the
blocks come out in declaration order. -/
theorem ConvertToCaddyfile_append (api : GoString) (A B : List Rule) (port : Int) :
    ConvertToCaddyfile ⟨api, A ++ B⟩ port =
      ((ConvertToCaddyfile ⟨api, A⟩ port).1 ++ (ConvertToCaddyfile ⟨api, B⟩ port).1, none) := by
  unfold ConvertToCaddyfile
  simp only [Prod.mk.injEq, and_true]
  rw [ConvertToCaddyfile_fold, ConvertToCaddyfile_fold, ConvertToCaddyfile_fold]
  simp

/-- C3: the target that `ConvertToCaddyfile` emits for a backend target `To` is
`To` with the placeholder `{port}` replaced by the decimal port: it is the text
written on the rule's line; the text put in place of the placeholder is the
decimal numeral of the port (a minus sign when negative, then the positional
digits of the magnitude), which is `8010` for 8010, `0` for 0 and `-1` for -1;
no occurrence of `{port}` is left; the leftmost occurrence in `To` becomes the
decimal numeral with the rest resolved likewise; a `To` in which the placeholder
occurs once becomes the text before it, the numeral and the text after it; and a
`To` without placeholder is emitted unchanged. -/
theorem ConvertToCaddyfile_resolves_port (toText : GoString) (port : Int) :
    (∀ (api m tls path : GoString),
      ConvertToCaddyfile ⟨api, [⟨m, tls, [⟨path, toText⟩]⟩]⟩ port =
        (m ++ str " \x7b\n" ++ (str "  reverse_proxy " ++ path ++ str " " ++
          replaceAll toText (str "\x7bport\x7d") (sprintfD port) ++ str "\n") ++ str "\x7d\n", none))
    ∧ sprintfD port = decimalOf port
    ∧ (sprintfD 8010 = str "8010" ∧ sprintfD 0 = str "0" ∧ sprintfD (-1) = str "-1")
    ∧ ¬ str "\x7bport\x7d" <:+: replaceAll toText (str "\x7bport\x7d") (sprintfD port)
    ∧ (∀ (a b : GoString), toText = a ++ str "\x7bport\x7d" ++ b →
        ¬ str "\x7bport\x7d" <:+: a ++ str "\x7bport" →
        replaceAll toText (str "\x7bport\x7d") (sprintfD port) =
          a ++ decimalOf port ++ replaceAll b (str "\x7bport\x7d") (sprintfD port))
    ∧ (∀ (a b : GoString), toText = a ++ str "\x7bport\x7d" ++ b →
        ¬ str "\x7bport\x7d" <:+: a ++ str "\x7bport" → ¬ str "\x7bport\x7d" <:+: b →
        replaceAll toText (str "\x7bport\x7d") (sprintfD port) = a ++ decimalOf port ++ b)
    ∧ (¬ str "\x7bport\x7d" <:+: toText →
        replaceAll toText (str "\x7bport\x7d") (sprintfD port) = toText) := by
  refine ⟨?_, sprintfD_eq_decimalOf port, ⟨by decide, by decide, by decide⟩, ?_, ?_, ?_, ?_⟩
  · intro api m tls path
    simp [ConvertToCaddyfile, sprintfReverseProxy, List.append_assoc]
  · exact not_infix_replaceAll _ _ placeholder_ne_nil (sprintfD_ne_nil port)
      (placeholder_disjoint port) toText
  · intro a b hto hno
    subst hto
    rw [replaceAll_first_occurrence _ _ placeholder_ne_nil b a hno, sprintfD_eq_decimalOf]
  · intro a b hto hno hb
    subst hto
    rw [replaceAll_first_occurrence _ _ placeholder_ne_nil b a hno,
      replaceAll_of_not_infix _ _ placeholder_ne_nil b hb, sprintfD_eq_decimalOf]
  · exact replaceAll_of_not_infix _ _ placeholder_ne_nil toText

/-- C3, at the targets `localhost:{port}` and `localhost:3000` with port 8010:
the first is emitted as `localhost:8010`, without placeholder, the second
unchanged. -/
theorem ConvertToCaddyfile_resolves_port_witness :
    (¬ str "\x7bport\x7d" <:+:
        replaceAll (str "localhost:\x7bport\x7d") (str "\x7bport\x7d") (sprintfD 8010))
    ∧ replaceAll (str "localhost:\x7bport\x7d") (str "\x7bport\x7d") (sprintfD 8010) =
        str "localhost:8010"
    ∧ replaceAll (str "localhost:3000") (str "\x7bport\x7d") (sprintfD 8010) =
        str "localhost:3000" :=
  ⟨(ConvertToCaddyfile_resolves_port (str "localhost:\x7bport\x7d") 8010).2.2.2.1,
   ((ConvertToCaddyfile_resolves_port (str "localhost:\x7bport\x7d") 8010).2.2.2.2.2.1
      (str "localhost:") [] (by decide) (by decide) (by decide)).trans
      (by
        rw [← (ConvertToCaddyfile_resolves_port (str "localhost:\x7bport\x7d") 8010).2.1]
        decide),
   (ConvertToCaddyfile_resolves_port (str "localhost:3000") 8010).2.2.2.2.2.2 (by decide)⟩

/-- C4: an empty rule list renders as the empty string, with a nil error. -/
theorem ConvertToCaddyfile_nil (api : GoString) (port : Int) :
    ConvertToCaddyfile ⟨api, []⟩ port = ([], none) := by
  rfl

/-- C5, as stated, fails: the rule `example.com` with the TLS directive
`internal` and one backend renders without the directive. -/
theorem ConvertToCaddyfile_drops_tls :
    (str "internal" ≠ [] ∧
      ¬ str "internal" <:+:
        (ConvertToCaddyfile
          ⟨str "http://localhost:2019",
            [⟨str "example.com", str "internal", [⟨str "/*", str "localhost:\x7bport\x7d"⟩]⟩]⟩
          8010).1) := by
  decide

/-- C5, amended: `ConvertToCaddyfile` does not read the TLS directive; whatever
the rules carry as `Tls`, the rendering is the same, so the directive is neither
emitted nor modified. -/
theorem ConvertToCaddyfile_ignores_tls (caddyCfg : CaddyConfig) (port : Int)
    (tls : Rule → GoString) :
    ConvertToCaddyfile
      { caddyCfg with Rules := caddyCfg.Rules.map (fun rule => { rule with Tls := tls rule }) }
      port = ConvertToCaddyfile caddyCfg port := by
  unfold ConvertToCaddyfile
  simp only [Prod.mk.injEq, and_true]
  rw [ConvertToCaddyfile_fold, ConvertToCaddyfile_fold]
  simp [List.map_map, Function.comp_def]

/-! ## Theorems on `SetupCaddy` and `NewCaddyClient` -/

/-- C6, the code at a failing push: whatever error `Load` reports, for every
port and configuration `SetupCaddy` returns nil. -/
theorem SetupCaddy_drops_load_error (e : GoError) (port : Int) (cfg : DeploymentConfig) :
    SetupCaddy (fun _ _ => some e) port cfg = none := by
  rfl

/-- C9, as stated, fails: the client built for `http://localhost:2019` has no
positive timeout. -/
theorem NewCaddyClient_no_timeout :
    ¬ ((NewCaddyClient (str "http://localhost:2019")).BaseURL = str "http://localhost:2019" ∧
        0 < (NewCaddyClient (str "http://localhost:2019")).HTTPClient.Timeout) := by
  decide

/-- C9, amended: for every base URL, `NewCaddyClient` builds a client that holds
the base URL unchanged and the zero-valued HTTP client, whose timeout is zero
(no timeout). -/
theorem NewCaddyClient_zero_client (baseURL : GoString) :
    (NewCaddyClient baseURL).BaseURL = baseURL
    ∧ (NewCaddyClient baseURL).HTTPClient = HTTPClient.zero
    ∧ (NewCaddyClient baseURL).HTTPClient.Timeout = 0 := by
  exact ⟨rfl, rfl, rfl⟩

/-! ## Theorems on `LoadConfig` -/

theorem resolveRulesTls_eq (env : Env) (rules : List Rule) :
    resolveRulesTls env rules =
      (rules.map (fun rule => { rule with Tls := (replaceEnvVariables env rule.Tls).1 }), none) := by
  induction rules with
  | nil => rfl
  | cons r rs ih =>
    simp only [resolveRulesTls, ih, List.map_cons]
    rfl

/-- The result of `LoadConfig` on a file that opens and parses. -/
theorem LoadConfig_ok (w : World) (path data : GoString) (doc : YamlDeploymentConfig)
    (hopen : w.openFile path = .ok data) (hparse : w.yamlParse data = (doc, none)) :
    LoadConfig w path =
      ({ App :=
          { (doc.decodeInto defaultConfig).App with
            Registry := resolveRegistry w.lookupEnv (doc.decodeInto defaultConfig).App.Registry }
         Caddy :=
          { (doc.decodeInto defaultConfig).Caddy with
            Rules := (doc.decodeInto defaultConfig).Caddy.Rules.map (fun rule =>
              { rule with Tls := (replaceEnvVariables w.lookupEnv rule.Tls).1 }) }
         HealthCheck := (doc.decodeInto defaultConfig).HealthCheck }, none) := by
  unfold LoadConfig
  simp only [hopen, hparse, resolveRulesTls_eq, resolveRegistry]
  by_cases h : (doc.decodeInto defaultConfig).App.Registry.Username ≠ [] ∧
      (doc.decodeInto defaultConfig).App.Registry.Password ≠ []
  · rw [if_pos h, if_pos h]
    cases hl : w.lookupEnv (doc.decodeInto defaultConfig).App.Registry.Password <;> rfl
  · rw [if_neg h, if_neg h]

/-- C7: for a configuration file that opens and parses, `LoadConfig` returns a
nil error and each of `port_range.start`, `port_range.end`, `caddy.admin_api`,
`health_check.timeout_seconds`, `interval_seconds` and `max_retries` is the
document's value when the document gives it, and 8000, 9000,
`http://localhost:2019`, 5, 5 and 3 when it does not. -/
theorem LoadConfig_defaults (w : World) (path data : GoString) (doc : YamlDeploymentConfig)
    (hopen : w.openFile path = .ok data) (hparse : w.yamlParse data = (doc, none)) :
    (LoadConfig w path).2 = none
    ∧ (LoadConfig w path).1.App.PortRange.Start =
        (((doc.App.bind (fun a => a.PortRange)).bind (fun r => r.Start)).getD 8000)
    ∧ (LoadConfig w path).1.App.PortRange.End =
        (((doc.App.bind (fun a => a.PortRange)).bind (fun r => r.End)).getD 9000)
    ∧ (LoadConfig w path).1.Caddy.AdminAPI =
        ((doc.Caddy.bind (fun c => c.AdminAPI)).getD (str "http://localhost:2019"))
    ∧ (LoadConfig w path).1.HealthCheck.TimeoutSeconds =
        ((doc.HealthCheck.bind (fun h => h.TimeoutSeconds)).getD 5)
    ∧ (LoadConfig w path).1.HealthCheck.IntervalSeconds =
        ((doc.HealthCheck.bind (fun h => h.IntervalSeconds)).getD 5)
    ∧ (LoadConfig w path).1.HealthCheck.MaxRetries =
        ((doc.HealthCheck.bind (fun h => h.MaxRetries)).getD 3) := by
  rw [LoadConfig_ok w path data doc hopen hparse]
  obtain ⟨app, caddy, hc⟩ := doc
  refine ⟨rfl, ?_, ?_, ?_, ?_, ?_, ?_⟩
  · rcases app with _ | ⟨_, _, _, _, _, _, _ | ⟨_ | _, _⟩⟩ <;> rfl
  · rcases app with _ | ⟨_, _, _, _, _, _, _ | ⟨_, _ | _⟩⟩ <;> rfl
  · rcases caddy with _ | ⟨_ | _, _⟩ <;> rfl
  · rcases hc with _ | ⟨_, _ | _, _, _⟩ <;> rfl
  · rcases hc with _ | ⟨_, _, _ | _, _⟩ <;> rfl
  · rcases hc with _ | ⟨_, _, _, _ | _⟩ <;> rfl

/-- C7, at the file `slick.yml` of `testWorld`: the timeout is the document's
30, the other five fields are the defaults. -/
theorem LoadConfig_defaults_witness :
    (LoadConfig testWorld (str "slick.yml")).2 = none
    ∧ (LoadConfig testWorld (str "slick.yml")).1.App.PortRange.Start = 8000
    ∧ (LoadConfig testWorld (str "slick.yml")).1.App.PortRange.End = 9000
    ∧ (LoadConfig testWorld (str "slick.yml")).1.Caddy.AdminAPI = str "http://localhost:2019"
    ∧ (LoadConfig testWorld (str "slick.yml")).1.HealthCheck.TimeoutSeconds = 30
    ∧ (LoadConfig testWorld (str "slick.yml")).1.HealthCheck.IntervalSeconds = 5
    ∧ (LoadConfig testWorld (str "slick.yml")).1.HealthCheck.MaxRetries = 3 :=
  LoadConfig_defaults testWorld (str "slick.yml") (str "app: ...") testDoc rfl rfl

theorem decodeInto_registry (doc : YamlDeploymentConfig) :
    (doc.decodeInto defaultConfig).App.Registry =
      { Username := ((doc.App.bind (fun a => a.Registry)).bind (fun r => r.Username)).getD []
        Password := ((doc.App.bind (fun a => a.Registry)).bind (fun r => r.Password)).getD [] } := by
  obtain ⟨app, caddy, hc⟩ := doc
  rcases app with _ | ⟨_, _, _ | ⟨_ | _, _ | _⟩, _, _, _, _⟩ <;> rfl

/-- C8: for a configuration file that opens and parses, the returned registry
username is the document's; when username and password of the document are both
non-empty and the variable named by the password is set, the returned password
is the variable's value; when the username is empty, the password is empty or
the variable is not set, the returned password is the document's. -/
theorem LoadConfig_registry (w : World) (path data : GoString) (doc : YamlDeploymentConfig)
    (hopen : w.openFile path = .ok data) (hparse : w.yamlParse data = (doc, none))
    (username password : GoString)
    (husername :
      username = ((doc.App.bind (fun a => a.Registry)).bind (fun r => r.Username)).getD [])
    (hpassword :
      password = ((doc.App.bind (fun a => a.Registry)).bind (fun r => r.Password)).getD []) :
    (LoadConfig w path).2 = none
    ∧ (LoadConfig w path).1.App.Registry.Username = username
    ∧ (∀ value, username ≠ [] → password ≠ [] → w.lookupEnv password = some value →
        (LoadConfig w path).1.App.Registry.Password = value)
    ∧ (username = [] ∨ password = [] ∨ w.lookupEnv password = none →
        (LoadConfig w path).1.App.Registry.Password = password) := by
  rw [LoadConfig_ok w path data doc hopen hparse]
  simp only [decodeInto_registry, ← husername, ← hpassword, resolveRegistry]
  refine ⟨trivial, trivial, ?_, ?_⟩
  · intro value hu hp hl
    rw [if_pos ⟨hu, hp⟩, hl]
  · intro h
    by_cases hc : username ≠ [] ∧ password ≠ []
    · rw [if_pos hc]
      rcases h with h | h | h
      · exact absurd h hc.1
      · exact absurd h hc.2
      · rw [h]
    · rw [if_neg hc]

/-- C8, at the file `slick.yml` of `testWorld`: the password
`TEST_REGISTRY_PASSWORD` is returned as `testpassword`, the user as `testuser`. -/
theorem LoadConfig_registry_witness :
    (LoadConfig testWorld (str "slick.yml")).1.App.Registry.Username = str "testuser"
    ∧ (LoadConfig testWorld (str "slick.yml")).1.App.Registry.Password = str "testpassword" :=
  ⟨(LoadConfig_registry testWorld (str "slick.yml") (str "app: ...") testDoc rfl rfl
      (str "testuser") (str "TEST_REGISTRY_PASSWORD") (by decide) (by decide)).2.1,
   (LoadConfig_registry testWorld (str "slick.yml") (str "app: ...") testDoc rfl rfl
      (str "testuser") (str "TEST_REGISTRY_PASSWORD") (by decide) (by decide)).2.2.1
      (str "testpassword") (by decide) (by decide) (by decide)⟩

theorem dropWhile_takeWhile_run (p : UInt8 → Bool) (d : UInt8) (t : GoString) (hd : p d = false) :
    ∀ (cs : GoString), cs.all p = true →
      (cs ++ d :: t).dropWhile p = d :: t ∧ (cs ++ d :: t).takeWhile p = cs := by
  intro cs
  induction cs with
  | nil => intro _; simp [List.dropWhile, List.takeWhile, hd]
  | cons c cs ih =>
    intro h
    simp only [List.all_cons, Bool.and_eq_true] at h
    have := ih h.2
    simp [List.dropWhile, List.takeWhile, h.1, this]

theorem envRef_eq (name rest : GoString) :
    envRef name ++ rest = str "\x7benv." ++ (name ++ (125 :: rest)) := by
  have : str "\x7d" = [125] := by decide
  simp [envRef, this]

/-- A reference at the start of the text is matched, whole. -/
theorem matchEnvRef_envRef (name rest : GoString) (hname : isEnvName name = true) :
    matchEnvRef (envRef name ++ rest) = some (envRef name, rest) := by
  cases name with
  | nil => simp [isEnvName] at hname
  | cons c cs =>
    simp only [isEnvName, Bool.and_eq_true] at hname
    have hp : hasPrefix (envRef (c :: cs) ++ rest) (str "\x7benv.") = true := by
      rw [hasPrefix_iff, envRef_eq]; exact List.prefix_append _ _
    have hdrop : (envRef (c :: cs) ++ rest).drop 5 = c :: (cs ++ 125 :: rest) := by
      rw [envRef_eq]
      have : (str "\x7benv.").length = 5 := by decide
      rw [← this, List.drop_left]
      rfl
    have hrun := dropWhile_takeWhile_run isNameChar 125 rest (by decide) cs hname.2
    have hclose : str "\x7d" = [125] := by decide
    unfold matchEnvRef
    rw [if_pos hp, hdrop]
    simp only [hname.1, if_true, hrun.1, hrun.2]
    simp [envRef, hclose]

/-- A match is a reference at the start of the text. -/
theorem matchEnvRef_some (s m rest : GoString) (h : matchEnvRef s = some (m, rest)) :
    ∃ name, isEnvName name = true ∧ m = envRef name ∧ s = envRef name ++ rest := by
  unfold matchEnvRef at h
  split at h
  · rename_i hp
    have hs : s = str "\x7benv." ++ s.drop 5 := by
      obtain ⟨t, ht⟩ := (hasPrefix_iff _ _).1 hp
      have : (str "\x7benv.").length = 5 := by decide
      rw [← ht, ← this, List.drop_left]
    split at h
    · rename_i c cs hdrop
      split at h
      · rename_i hc
        split at h
        · rename_i d rest' hdw
          split at h
          · rename_i hd
            simp only [Option.some.injEq, Prod.mk.injEq] at h
            obtain ⟨hm, hr⟩ := h
            subst hr hd
            refine ⟨c :: cs.takeWhile isNameChar, ?_, ?_, ?_⟩
            · simp only [isEnvName, Bool.and_eq_true, List.all_eq_true]
              exact ⟨hc, fun b hb => (List.mem_takeWhile_imp hb)⟩
            · rw [← hm]; rfl
            · rw [envRef_eq, hs, hdrop]
              congr 1
              have := List.takeWhile_append_dropWhile isNameChar cs
              rw [hdw] at this
              simp only [List.cons_append, List.cons.injEq, true_and]
              exact this.symm
          · simp at h
        · simp at h
      · simp at h
    · simp at h
  · simp at h

theorem length_envRef_pos (name : GoString) : 0 < (envRef name).length := by
  have : (str "\x7benv.").length = 5 := by decide
  simp [envRef, this]

/-- The scan of `replaceAllStringFunc` does not depend on the bound once the
bound covers the length of the string. -/
theorem replaceAllStringFuncAux_fuel (repl : GoString → GoString) :
    ∀ (fuel₁ fuel₂ : Nat) (s : GoString), s.length ≤ fuel₁ → s.length ≤ fuel₂ →
      replaceAllStringFuncAux repl fuel₁ s = replaceAllStringFuncAux repl fuel₂ s := by
  intro fuel₁
  induction fuel₁ with
  | zero =>
    intro fuel₂ s h1 _
    have hs : s = [] := List.length_eq_zero.mp (Nat.le_zero.mp h1)
    subst hs
    cases fuel₂ <;> simp [replaceAllStringFuncAux]
  | succ n ih =>
    intro fuel₂ s h1 h2
    cases s with
    | nil => cases fuel₂ <;> simp [replaceAllStringFuncAux]
    | cons c cs =>
      cases fuel₂ with
      | zero => simp at h2
      | succ m =>
        simp only [List.length_cons] at h1 h2
        simp only [replaceAllStringFuncAux]
        cases hm : matchEnvRef (c :: cs) with
        | none =>
          simp only
          congr 1
          apply ih <;> omega
        | some mr =>
          obtain ⟨mt, rest⟩ := mr
          obtain ⟨name, _, _, hs⟩ := matchEnvRef_some _ _ _ hm
          have hl : rest.length < (c :: cs).length := by
            rw [hs, List.length_append]
            have := length_envRef_pos name
            omega
          simp only [List.length_cons] at hl
          simp only
          congr 1
          apply ih <;> omega

theorem replaceAllStringFunc_nil (repl : GoString → GoString) :
    replaceAllStringFunc [] repl = [] := by
  simp [replaceAllStringFunc, replaceAllStringFuncAux]

theorem replaceAllStringFunc_ref (repl : GoString → GoString) (name rest : GoString)
    (hname : isEnvName name = true) :
    replaceAllStringFunc (envRef name ++ rest) repl =
      repl (envRef name) ++ replaceAllStringFunc rest repl := by
  have hm := matchEnvRef_envRef name rest hname
  have hl := length_envRef_pos name
  cases hs : envRef name ++ rest with
  | nil =>
    have := congrArg List.length hs
    simp only [List.length_append, List.length_nil] at this
    omega
  | cons c cs =>
    rw [hs] at hm
    have hlen : rest.length ≤ cs.length := by
      have := congrArg List.length hs
      simp only [List.length_append, List.length_cons] at this
      omega
    simp only [replaceAllStringFunc, List.length_cons, replaceAllStringFuncAux, hm]
    congr 1
    exact replaceAllStringFuncAux_fuel repl _ _ _ hlen (Nat.le_refl _)

theorem replaceAllStringFunc_byte (repl : GoString → GoString) (c : UInt8) (cs : GoString)
    (h : matchEnvRef (c :: cs) = none) :
    replaceAllStringFunc (c :: cs) repl = c :: replaceAllStringFunc cs repl := by
  simp [replaceAllStringFunc, replaceAllStringFuncAux, h]

/-- Induction along the scan of `replaceAllStringFunc`. -/
theorem replaceAllStringFunc_induction (motive : GoString → Prop)
    (nil : motive [])
    (ref : ∀ name rest, isEnvName name = true → motive rest → motive (envRef name ++ rest))
    (byte : ∀ c cs, matchEnvRef (c :: cs) = none → motive cs → motive (c :: cs)) :
    ∀ s, motive s := by
  intro s
  generalize h : s.length = n
  induction n using Nat.strong_induction_on generalizing s with
  | _ n ih =>
    cases s with
    | nil => exact nil
    | cons c cs =>
      cases hm : matchEnvRef (c :: cs) with
      | none =>
        apply byte _ _ hm
        apply ih _ _ _ rfl
        subst h
        simp
      | some mr =>
        obtain ⟨mt, rest⟩ := mr
        obtain ⟨name, hname, _, hs⟩ := matchEnvRef_some _ _ _ hm
        rw [hs]
        apply ref _ _ hname
        apply ih _ _ _ rfl
        subst h
        rw [hs, List.length_append]
        have := length_envRef_pos name
        omega

/-- The replacement function of `replaceEnvVariables`, at a reference. -/
theorem lookup_envRef (name : GoString) :
    trimSuffix (trimPrefix (envRef name) (str "\x7benv.")) (str "\x7d") = name := by
  unfold envRef
  rw [List.append_assoc, trimPrefix_append, trimSuffix_append]

theorem matchEnvRef_none (c : UInt8) (cs : GoString) :
    matchEnvRef (c :: cs) = none ↔
      ∀ name tail, isEnvName name = true → c :: cs ≠ envRef name ++ tail := by
  constructor
  · intro h name tail hname heq
    rw [heq, matchEnvRef_envRef name tail hname] at h
    simp at h
  · intro h
    cases hm : matchEnvRef (c :: cs) with
    | none => rfl
    | some mr =>
      obtain ⟨mt, rest⟩ := mr
      obtain ⟨name, hname, _, hs⟩ := matchEnvRef_some _ _ _ hm
      exact absurd hs (h name rest hname)

theorem replaceEnvVariables_nil (env : Env) : (replaceEnvVariables env []).1 = [] := by
  simp [replaceEnvVariables, replaceAllStringFunc_nil]

theorem replaceEnvVariables_ref (env : Env) (name rest : GoString)
    (hname : isEnvName name = true) :
    (replaceEnvVariables env (envRef name ++ rest)).1 =
      (match env name with
        | some value => value
        | none => envRef name) ++ (replaceEnvVariables env rest).1 := by
  simp only [replaceEnvVariables]
  rw [replaceAllStringFunc_ref _ name rest hname]
  simp only [lookup_envRef]

theorem replaceEnvVariables_byte (env : Env) (c : UInt8) (cs : GoString)
    (h : matchEnvRef (c :: cs) = none) :
    (replaceEnvVariables env (c :: cs)).1 = c :: (replaceEnvVariables env cs).1 := by
  simp only [replaceEnvVariables]
  rw [replaceAllStringFunc_byte _ c cs h]

/-- The output of `replaceEnvVariables` is a substitution of the input. -/
theorem envSubst_replaceEnvVariables (env : Env) (input : GoString) :
    EnvSubst env input (replaceEnvVariables env input).1 := by
  induction input using replaceAllStringFunc_induction with
  | nil => rw [replaceEnvVariables_nil]; exact EnvSubst.nil
  | ref name rest hname ih =>
    rw [replaceEnvVariables_ref env name rest hname]
    exact EnvSubst.ref name rest _ hname ih
  | byte c cs hm ih =>
    rw [replaceEnvVariables_byte env c cs hm]
    exact EnvSubst.byte c cs _ ((matchEnvRef_none c cs).1 hm) ih

/-- The substitution of an input is unique. -/
theorem envSubst_unique (env : Env) (input out : GoString) (h : EnvSubst env input out) :
    out = (replaceEnvVariables env input).1 := by
  induction h with
  | nil => rw [replaceEnvVariables_nil]
  | ref name rest out hname _ ih =>
    rw [replaceEnvVariables_ref env name rest hname, ih]
  | byte c rest out hno _ ih =>
    rw [replaceEnvVariables_byte env c rest ((matchEnvRef_none c rest).2 hno), ih]

/-- Where no variable that the input refers to is set, the input is returned. -/
theorem replaceEnvVariables_unset (env : Env) (input : GoString) :
    (∀ name, isEnvName name = true → envRef name <:+: input → env name = none) →
      (replaceEnvVariables env input).1 = input := by
  induction input using replaceAllStringFunc_induction with
  | nil => intro _; exact replaceEnvVariables_nil env
  | ref name rest hname ih =>
    intro h
    have hn : env name = none := h name hname (List.prefix_append _ _).isInfix
    rw [replaceEnvVariables_ref env name rest hname, hn]
    simp only [List.append_cancel_left_eq]
    exact ih (fun n hn' hi => h n hn' (hi.trans (List.suffix_append _ _).isInfix))
  | byte c cs hm ih =>
    intro h
    rw [replaceEnvVariables_byte env c cs hm]
    simp only [List.cons.injEq, true_and]
    exact ih (fun n hn' hi => h n hn' (List.infix_cons hi))

/-! ## Theorems on `replaceEnvVariables` -/

/-- C10: for every environment and input, `replaceEnvVariables` returns a nil
error; its output is the one substitution of the input in which, from the left,
each reference `{env.NAME}` to a set variable is replaced by the variable's
value and every reference to an unset variable and every other byte stays in
place; when no variable the input refers to is set, and so when the input has no
`{env.`, the output is the input. -/
theorem replaceEnvVariables_spec (env : Env) (input : GoString) :
    (replaceEnvVariables env input).2 = none
    ∧ (∀ out, EnvSubst env input out ↔ out = (replaceEnvVariables env input).1)
    ∧ ((∀ name, isEnvName name = true → envRef name <:+: input → env name = none) →
        (replaceEnvVariables env input).1 = input)
    ∧ (¬ str "\x7benv." <:+: input → (replaceEnvVariables env input).1 = input) := by
  refine ⟨rfl, ?_, replaceEnvVariables_unset env input, ?_⟩
  · intro out
    constructor
    · exact envSubst_unique env input out
    · intro h
      rw [h]
      exact envSubst_replaceEnvVariables env input
  · intro hno
    apply replaceEnvVariables_unset env input
    intro name _ hi
    exfalso
    apply hno
    have hp : str "\x7benv." <+: envRef name := by
      unfold envRef
      rw [List.append_assoc]
      exact List.prefix_append _ _
    exact hp.isInfix.trans hi

/-- C10, at the input `tls internal` (no reference), at the input `{env.CERT}`
in an empty environment, and at `{env.HOME}/cert` where `HOME` is `/root`. -/
theorem replaceEnvVariables_spec_witness :
    (replaceEnvVariables (fun _ => none) (str "tls internal")).1 = str "tls internal"
    ∧ (replaceEnvVariables (fun _ => none) (str "\x7benv.CERT\x7d")).1 = str "\x7benv.CERT\x7d"
    ∧ EnvSubst (fun name => if name = str "HOME" then some (str "/root") else none)
        (str "\x7benv.HOME\x7d/cert") (str "/root/cert") :=
  ⟨(replaceEnvVariables_spec (fun _ => none) (str "tls internal")).2.2.2 (by decide),
   (replaceEnvVariables_spec (fun _ => none) (str "\x7benv.CERT\x7d")).2.2.1 (fun _ _ _ => rfl),
   ((replaceEnvVariables_spec
      (fun name => if name = str "HOME" then some (str "/root") else none)
      (str "\x7benv.HOME\x7d/cert")).2.1 (str "/root/cert")).2 (by decide)⟩

end SlickDeploy
